import Mathlib

/-!
Verification development for the Infraread core: a shallow embedding of the
capture/replay timeline, the phrase-merge/render engine, the lexicon
connotation scorer, the auto-annotator, and the session metrics analyzer,
together with theorems settling the stated properties.

Text is modelled as `List Char` (JavaScript strings), numbers as `ℚ`
(JavaScript floating-point arithmetic at the small magnitudes involved),
and JavaScript `Math.round` as `jsRound`.  CSS color strings are modelled
structurally by `ColorVal` (the textual `rgba(...)` formatting is
presentation-only).
-/

/-- The JavaScript regular-expression class `\s` (whitespace). -/
def isJsSpace (c : Char) : Bool :=
  c = ' ' || c = '\t' || c = '\n' || c = '\r' || c.toNat = 0x0b || c.toNat = 0x0c ||
  c.toNat = 0x00A0 || c.toNat = 0x1680 ||
  (0x2000 <= c.toNat && c.toNat <= 0x200A) ||
  c.toNat = 0x2028 || c.toNat = 0x2029 || c.toNat = 0x202F ||
  c.toNat = 0x205F || c.toNat = 0x3000 || c.toNat = 0xFEFF

/-- The fixed punctuation class of the render engine:
`[.,!?;:()"—–]` (em dash and en dash written out). -/
def isBoundaryPunct (c : Char) : Bool :=
  c = '.' || c = ',' || c = '!' || c = '?' || c = ';' || c = ':' ||
  c = '(' || c = ')' || c = '"' || c.toNat = 0x2014 || c.toNat = 0x2013

/-- `String.prototype.toLowerCase` on one character (ASCII range, as used
by every phrase in this development). -/
def jsLowerChar (c : Char) : Char := c.toLower

/-- `String.prototype.toLowerCase`. -/
def lowerStr (s : List Char) : List Char := s.map jsLowerChar

/-- `String.prototype.trim`: drop leading and trailing whitespace. -/
def jsTrim (s : List Char) : List Char :=
  ((s.dropWhile isJsSpace).reverse.dropWhile isJsSpace).reverse

/-- `Math.round`: round half toward positive infinity. -/
def jsRound (q : ℚ) : ℤ := ⌊q + 1/2⌋

/-- A CSS color value: `transparent`, an `rgba(r, g, b, a)` value, or an
opaque CSS literal (for example a hex string from the color picker). -/
inductive ColorVal where
  | transparent
  | rgba (r g b : ℤ) (a : ℚ)
  | css (s : String)
deriving DecidableEq

/-- The alpha channel of a color (CSS `transparent` is alpha 0; opaque CSS
literals from the picker are fully opaque). -/
def alphaOf : ColorVal → ℚ
  | ColorVal.transparent => 0
  | ColorVal.rgba _ _ _ a => a
  | ColorVal.css _ => 1

/-- An RGB triple (one parsed hex color constant). -/
structure Rgb where
  r : ℤ
  g : ℤ
  b : ℤ
deriving DecidableEq

/-- `normalizeScore` from autoAnnotate: clamp a score to [-1, 1]
(the NaN/infinity guard of the source cannot arise over ℚ). -/
def normalizeScore (raw : ℚ) : ℚ := max (-1) (min 1 raw)

/-- One channel of `lerpColor`: `Math.round(ca + (cb - ca) * t)`. -/
def lerpChannel (a b : ℤ) (t : ℚ) : ℤ := jsRound ((a : ℚ) + ((b : ℚ) - (a : ℚ)) * t)

/-- `lerpColor` from autoAnnotate, on parsed RGB constants. -/
def lerpColor (ca cb : Rgb) (t : ℚ) : Rgb :=
  ⟨lerpChannel ca.r cb.r t, lerpChannel ca.g cb.g t, lerpChannel ca.b cb.b t⟩

/-- `hexToRgb("#fff9e6")` — the pale gold endpoint. -/
def goldStart : Rgb := ⟨255, 249, 230⟩

/-- `hexToRgb("#ffbf3b")` — the saturated gold endpoint. -/
def goldEnd : Rgb := ⟨255, 191, 59⟩

/-- `hexToRgb("#eef2ff")` — the pale indigo endpoint. -/
def indigoStart : Rgb := ⟨238, 242, 255⟩

/-- `hexToRgb("#4f46e5")` — the saturated indigo endpoint. -/
def indigoEnd : Rgb := ⟨79, 70, 229⟩

/-- `scoreToColor` from autoAnnotate (the gold/indigo scale): transparent at
0; the gold ramp with alpha `0.6 + 0.35*s` for positive scores; the indigo
ramp with alpha `0.6 + 0.3*(-s)` for negative scores. -/
def scoreToColor (score : ℚ) : ColorVal :=
  let s := normalizeScore score
  if s = 0 then ColorVal.transparent
  else if 0 < s then
    let c := lerpColor goldStart goldEnd s
    ColorVal.rgba c.r c.g c.b (3/5 + 7/20 * s)
  else
    let t := -s
    let c := lerpColor indigoStart indigoEnd t
    ColorVal.rgba c.r c.g c.b (3/5 + 3/10 * t)

/-- The connotation lexicon of autoAnnotate (`LEXICON`). -/
def LEXICON : List (List Char × ℚ) :=
  [("happy".toList, 17/20), ("joy".toList, 17/20), ("love".toList, 19/20),
   ("excellent".toList, 9/10), ("good".toList, 13/20), ("great".toList, 3/4),
   ("success".toList, 13/20), ("celebrate".toList, 3/5),
   ("the".toList, 0), ("and".toList, 0),
   ("sad".toList, -17/20), ("anger".toList, -17/20), ("angry".toList, -17/20),
   ("hate".toList, -19/20), ("bad".toList, -3/5), ("failure".toList, -3/4),
   ("worried".toList, -11/20), ("anxious".toList, -3/5),
   ("not good".toList, -3/5), ("very happy".toList, 9/10)]

/-- Lexicon lookup (`Object.prototype.hasOwnProperty` plus access). -/
def lexiconLookup (w : List Char) : Option ℚ :=
  (LEXICON.find? (fun e => e.1 = w)).map (fun e => e.2)

/-- Split on whitespace runs and drop empty pieces
(`w.split(/\s+/).filter(Boolean)`). -/
def splitWsAux : List Char → List Char → List (List Char)
  | [], acc => [acc.reverse]
  | c :: r, acc =>
    if isJsSpace c then acc.reverse :: splitWsAux r [] else splitWsAux r (c :: acc)

/-- Space-separated tokens of a string (empty pieces dropped). -/
def splitWs (s : List Char) : List (List Char) :=
  (splitWsAux s []).filter (fun t => t ≠ [])

/-- The body of the `computeConnotationScoresForWords` loop for one word:
trim and lowercase; skip the empty word; exact lexicon hit, else the
average of the lexicon scores of the known space-separated tokens
(0 when none is known); clamp.  Returns the map key and stored score. -/
def scoreWord (raw : List Char) : Option (List Char × ℚ) :=
  let w := lowerStr (jsTrim raw)
  if w = [] then none
  else
    match lexiconLookup w with
    | some v => some (w, normalizeScore v)
    | none =>
      let known := (splitWs w).filterMap lexiconLookup
      let score := if 0 < known.length then known.sum / known.length else 0
      some (w, normalizeScore score)

/-- `Map.set`: overwrite in place when the key is present, else append. -/
def mapSet (m : List (List Char × ℚ)) (k : List Char) (v : ℚ) :
    List (List Char × ℚ) :=
  if m.any (fun e => e.1 = k) then
    m.map (fun e => if e.1 = k then (k, v) else e)
  else m ++ [(k, v)]

/-- `Map.get`. -/
def mapGet (m : List (List Char × ℚ)) (k : List Char) : Option ℚ :=
  (m.find? (fun e => e.1 = k)).map (fun e => e.2)

/-- `computeConnotationScoresForWords` from autoAnnotate: a Map from the
trimmed lowercased word to its connotation score in [-1, 1]. -/
def computeConnotationScoresForWords (words : List (List Char)) :
    List (List Char × ℚ) :=
  words.foldl
    (fun out raw =>
      match scoreWord raw with
      | none => out
      | some (k, v) => mapSet out k v)
    []

example : lexiconLookup "happy".toList = some (17/20) := rfl

example : scoreWord "HAPPY".toList = some ("happy".toList, 17/20) := by
  have h : scoreWord "HAPPY".toList = some ("happy".toList, normalizeScore (17/20)) := rfl
  rw [h]; norm_num [normalizeScore]

example : scoreWord " not good ".toList = some ("not good".toList, -3/5) := by
  have h : scoreWord " not good ".toList
      = some ("not good".toList, normalizeScore (-3/5)) := rfl
  rw [h]; norm_num [normalizeScore]

/-- An annotation source: explicit user marking, the transient live marking,
or the automatic annotator. -/
inductive Source where
  | user
  | live
  | auto
deriving DecidableEq

/-- Source precedence in the merge engine (`{ user: 3, live: 2, auto: 1 }`). -/
def precedence : Source → ℕ
  | Source.user => 3
  | Source.live => 2
  | Source.auto => 1

/-- A candidate of the merge engine, as assembled in `renderHeatText`:
the phrase, its precomputed lowercase key, a display color and a source. -/
structure Ann where
  phrase : List Char
  phraseLower : List Char
  color : ColorVal
  source : Source
deriving DecidableEq

/-- `isStartBoundary`: position 0, or the previous character is whitespace
or fixed punctuation. -/
def isStartBoundary (src : List Char) (pos : ℕ) : Bool :=
  pos == 0 ||
    (match src.get? (pos - 1) with
     | some c => isJsSpace c || isBoundaryPunct c
     | none => false)

/-- `isEndBoundary`: end of text, or the character at `pos` is whitespace
or fixed punctuation. -/
def isEndBoundary (src : List Char) (pos : ℕ) : Bool :=
  src.length ≤ pos ||
    (match src.get? pos with
     | some c => isJsSpace c || isBoundaryPunct c
     | none => false)

/-- `src.substr(i, n)`. -/
def segmentAt (src : List Char) (i n : ℕ) : List Char := (src.drop i).take n

/-- The current best candidate of the scan loop. -/
structure Best where
  ann : Ann
  matchLen : ℕ
deriving DecidableEq

/-- One iteration of the candidate loop in `renderHeatText`: skip empty
phrases; require a case-insensitive segment match and both boundary
conditions; then keep the strictly longer match, or on equal length the
strictly higher source precedence. -/
def considerAnn (src : List Char) (i : ℕ) (best : Option Best) (ann : Ann) :
    Option Best :=
  let p := ann.phraseLower
  if p = [] then best
  else if lowerStr (segmentAt src i p.length) = p then
    if isStartBoundary src i && isEndBoundary src (i + p.length) then
      match best with
      | none => some ⟨ann, p.length⟩
      | some b =>
        if b.matchLen < p.length then some ⟨ann, p.length⟩
        else if p.length = b.matchLen ∧ precedence b.ann.source < precedence ann.source
          then some ⟨ann, p.length⟩
        else some b
    else best
  else best

/-- The candidate loop of `renderHeatText`. -/
def scanBest (src : List Char) (i : ℕ) : List Ann → Option Best → Option Best
  | [], best => best
  | a :: r, best => scanBest src i r (considerAnn src i best a)

/-- The selected candidate at scan position `i`. -/
def pickBest (src : List Char) (i : ℕ) (anns : List Ann) : Option Best :=
  scanBest src i anns none

/-- The inner `while` of the plain-token branch, walking the remaining
suffix of the text: advance `j` over non-whitespace characters. -/
def wordEndAux : List Char → ℕ → ℕ
  | [], j => j
  | c :: r, j => if isJsSpace c then j else wordEndAux r (j + 1)

/-- The index just past the maximal run of non-whitespace characters
starting at `j` (`while (j < len && !/\s/.test(src[j])) j++`). -/
def wordEnd (src : List Char) (j : ℕ) : ℕ := wordEndAux (src.drop j) j

/-- An output span of the merge engine: a verbatim whitespace character, a
highlighted phrase match, or a plain token run. -/
inductive Span where
  | ws (t : List Char)
  | highlight (t : List Char) (color : ColorVal) (source : Source)
  | plain (t : List Char)
deriving DecidableEq

/-- The text carried by a span. -/
def Span.text : Span → List Char
  | Span.ws t => t
  | Span.highlight t _ _ => t
  | Span.plain t => t

/-- A candidate matches at position `i`: nonempty phrase key, the
case-insensitive segment equals the key, and both boundary conditions. -/
def matchesAt (src : List Char) (i : ℕ) (a : Ann) : Prop :=
  a.phraseLower ≠ [] ∧
  lowerStr (segmentAt src i a.phraseLower.length) = a.phraseLower ∧
  isStartBoundary src i = true ∧
  isEndBoundary src (i + a.phraseLower.length) = true

instance (src : List Char) (i : ℕ) (a : Ann) : Decidable (matchesAt src i a) := by
  unfold matchesAt; infer_instance

/-- A `Best` record is well formed: its candidate matches and its recorded
length is the phrase-key length. -/
def goodBest (src : List Char) (i : ℕ) (b : Best) : Prop :=
  matchesAt src i b.ann ∧ b.matchLen = b.ann.phraseLower.length

/-- `b` beats or ties candidate `a`: strictly longer, or equally long with
source precedence at least as high. -/
def dominates (b : Best) (a : Ann) : Prop :=
  a.phraseLower.length < b.matchLen ∨
  (a.phraseLower.length = b.matchLen ∧ precedence a.source ≤ precedence b.ann.source)

lemma considerAnn_eq (src : List Char) (i : ℕ) (best : Option Best) (ann : Ann) :
    considerAnn src i best ann =
      if matchesAt src i ann then
        match best with
        | none => some ⟨ann, ann.phraseLower.length⟩
        | some b =>
          if b.matchLen < ann.phraseLower.length then
            some ⟨ann, ann.phraseLower.length⟩
          else if ann.phraseLower.length = b.matchLen ∧
              precedence b.ann.source < precedence ann.source then
            some ⟨ann, ann.phraseLower.length⟩
          else some b
      else best := by
  unfold considerAnn matchesAt
  by_cases hp : ann.phraseLower = [] <;>
    by_cases hseg : lowerStr (segmentAt src i ann.phraseLower.length) = ann.phraseLower <;>
      by_cases hsb : isStartBoundary src i = true <;>
        by_cases heb : isEndBoundary src (i + ann.phraseLower.length) = true <;>
          simp [hp, hseg, hsb, heb]

lemma dominates_trans {b' b : Best} {a : Ann}
    (hb : b.matchLen = b.ann.phraseLower.length)
    (h1 : dominates b' b.ann) (h2 : dominates b a) : dominates b' a := by
  unfold dominates at h1 h2 ⊢
  omega

lemma dominates_refl {src : List Char} {i : ℕ} {b : Best} (h : goodBest src i b) :
    dominates b b.ann := by
  unfold dominates
  right
  exact ⟨h.2.symm, le_refl _⟩

/-- Full characterisation of the candidate loop, by induction over the
remaining candidates: the accumulator stays well formed; a returned best is
the accumulator or one of the candidates, dominates every matching
candidate seen, and dominates the accumulator; `none` is returned only when
the accumulator was empty and nothing matched. -/
lemma scanBest_spec (src : List Char) (i : ℕ) :
    ∀ (anns : List Ann) (acc : Option Best),
      (∀ b, acc = some b → goodBest src i b) →
      ((∀ b, scanBest src i anns acc = some b → goodBest src i b) ∧
       (∀ b, scanBest src i anns acc = some b →
         (acc = some b ∨ b.ann ∈ anns) ∧
         (∀ a ∈ anns, matchesAt src i a → dominates b a) ∧
         (∀ b0, acc = some b0 → dominates b b0.ann)) ∧
       (scanBest src i anns acc = none →
         acc = none ∧ ∀ a ∈ anns, ¬ matchesAt src i a)) := by
  intro anns
  induction anns with
  | nil =>
    intro acc hacc
    simp only [scanBest]
    refine ⟨hacc, fun b hb => ⟨Or.inl hb, ?_, ?_⟩, fun hn => ⟨hn, ?_⟩⟩
    · intro a ha; exact absurd ha (List.not_mem_nil a)
    · intro b0 hb0
      rw [hb] at hb0
      cases hb0
      exact dominates_refl (hacc b hb)
    · intro a ha; exact absurd ha (List.not_mem_nil a)
  | cons a r ih =>
    intro acc hacc
    simp only [scanBest]
    by_cases hm : matchesAt src i a
    · -- head matches: the accumulator becomes some well-formed bnew
      have step : ∃ bnew, considerAnn src i acc a = some bnew ∧
          goodBest src i bnew ∧
          (acc = some bnew ∨ bnew = ⟨a, a.phraseLower.length⟩) ∧
          dominates bnew a ∧
          (∀ b0, acc = some b0 → dominates bnew b0.ann) := by
        rcases hacc0 : acc with _ | b0
        · refine ⟨⟨a, a.phraseLower.length⟩, ?_, ⟨hm, rfl⟩, Or.inr rfl, ?_, ?_⟩
          · rw [considerAnn_eq, if_pos hm]
          · exact dominates_refl ⟨hm, rfl⟩
          · intro b0 hb0; cases hb0
        · have hg0 : goodBest src i b0 := hacc b0 hacc0
          by_cases h1 : b0.matchLen < a.phraseLower.length
          · refine ⟨⟨a, a.phraseLower.length⟩, ?_, ⟨hm, rfl⟩, Or.inr rfl,
              dominates_refl ⟨hm, rfl⟩, ?_⟩
            · rw [considerAnn_eq, if_pos hm]
              simp [h1]
            · intro b1 hb1
              cases hb1
              have hlen0 := hg0.2
              unfold dominates
              left
              dsimp only
              omega
          · by_cases h2 : a.phraseLower.length = b0.matchLen ∧
                precedence b0.ann.source < precedence a.source
            · refine ⟨⟨a, a.phraseLower.length⟩, ?_, ⟨hm, rfl⟩, Or.inr rfl,
                dominates_refl ⟨hm, rfl⟩, ?_⟩
              · rw [considerAnn_eq, if_pos hm]
                simp [h1, h2]
              · intro b1 hb1
                cases hb1
                have hlen0 := hg0.2
                obtain ⟨h2a, h2b⟩ := h2
                unfold dominates
                right
                dsimp only
                exact ⟨by omega, by omega⟩
            · refine ⟨b0, ?_, hg0, Or.inl rfl, ?_, ?_⟩
              · rw [considerAnn_eq, if_pos hm]
                simp [h1, h2]
              · unfold dominates
                rcases Nat.lt_or_ge a.phraseLower.length b0.matchLen with h | h
                · exact Or.inl h
                · right
                  constructor
                  · omega
                  · by_cases he : a.phraseLower.length = b0.matchLen
                    · rcases Nat.lt_or_ge (precedence b0.ann.source) (precedence a.source) with hp | hp
                      · exact absurd ⟨he, hp⟩ h2
                      · exact hp
                    · omega
              · intro b1 hb1
                cases hb1
                exact dominates_refl hg0
      obtain ⟨bnew, hstep, hgnew, hsrc, hdoma, hdacc⟩ := step
      rw [hstep]
      have haccOK' : ∀ b, (some bnew : Option Best) = some b → goodBest src i b := by
        intro b hb; cases hb; exact hgnew
      obtain ⟨g1, g2, g3⟩ := ih (some bnew) haccOK'
      refine ⟨g1, fun b hb => ?_, fun hn => ?_⟩
      · obtain ⟨hmem, hdom, hdacc'⟩ := g2 b hb
        have hdbnew : dominates b bnew.ann := hdacc' bnew rfl
        refine ⟨?_, ?_, ?_⟩
        · rcases hmem with h | h
          · cases h
            rcases hsrc with h' | h'
            · exact Or.inl h'
            · rw [h']
              exact Or.inr (List.mem_cons_self a r)
          · exact Or.inr (List.mem_cons_of_mem a h)
        · intro x hx hmx
          rcases List.mem_cons.mp hx with rfl | hx'
          · exact dominates_trans hgnew.2 hdbnew hdoma
          · exact hdom x hx' hmx
        · intro b0 hb0
          exact dominates_trans hgnew.2 hdbnew (hdacc b0 hb0)
      · obtain ⟨h1, _⟩ := g3 hn
        cases h1
    · -- head does not match: accumulator unchanged
      have hsame : considerAnn src i acc a = acc := by
        rw [considerAnn_eq, if_neg hm]
      rw [hsame]
      obtain ⟨g1, g2, g3⟩ := ih acc hacc
      refine ⟨g1, fun b hb => ?_, fun hn => ?_⟩
      · obtain ⟨hmem, hdom, hdacc⟩ := g2 b hb
        refine ⟨?_, ?_, hdacc⟩
        · rcases hmem with h | h
          · exact Or.inl h
          · exact Or.inr (List.mem_cons_of_mem a h)
        · intro x hx hmx
          rcases List.mem_cons.mp hx with rfl | hx'
          · exact absurd hmx hm
          · exact hdom x hx' hmx
      · obtain ⟨h1, h2⟩ := g3 hn
        refine ⟨h1, fun x hx hmx => ?_⟩
        rcases List.mem_cons.mp hx with rfl | hx'
        · exact hm hmx
        · exact h2 x hx' hmx

lemma pickBest_good {src : List Char} {i : ℕ} {anns : List Ann} {b : Best}
    (h : pickBest src i anns = some b) :
    goodBest src i b ∧ b.ann ∈ anns ∧
      ∀ a ∈ anns, matchesAt src i a → dominates b a := by
  obtain ⟨g1, g2, _⟩ := scanBest_spec src i anns none (fun b hb => by cases hb)
  obtain ⟨hmem, hdom, _⟩ := g2 b h
  refine ⟨g1 b h, ?_, hdom⟩
  rcases hmem with h' | h'
  · cases h'
  · exact h'

lemma pickBest_none {src : List Char} {i : ℕ} {anns : List Ann}
    (h : pickBest src i anns = none) :
    ∀ a ∈ anns, ¬ matchesAt src i a := by
  obtain ⟨_, _, g3⟩ := scanBest_spec src i anns none (fun b hb => by cases hb)
  exact (g3 h).2

lemma pickBest_isSome {src : List Char} {i : ℕ} {anns : List Ann} {a : Ann}
    (ha : a ∈ anns) (hm : matchesAt src i a) :
    ∃ b, pickBest src i anns = some b := by
  rcases hp : pickBest src i anns with _ | b
  · exact absurd hm (pickBest_none hp a ha)
  · exact ⟨b, rfl⟩

/-- A matching candidate fits inside the text: its phrase-key length is at
most the remaining length. -/
lemma matchesAt_len_le {src : List Char} {i : ℕ} {a : Ann}
    (h : matchesAt src i a) : a.phraseLower.length ≤ src.length - i := by
  have hs := h.2.1
  have : (lowerStr (segmentAt src i a.phraseLower.length)).length
      = a.phraseLower.length := by rw [hs]
  simp only [lowerStr, segmentAt, List.length_map, List.length_take,
    List.length_drop] at this
  omega

lemma pickBest_matchLen_pos {src : List Char} {i : ℕ} {anns : List Ann} {b : Best}
    (h : pickBest src i anns = some b) : 0 < b.matchLen := by
  have hg := (pickBest_good h).1
  unfold goodBest matchesAt at hg
  have hpos : 0 < b.ann.phraseLower.length := List.length_pos.mpr hg.1.1
  omega

lemma pickBest_matchLen_le {src : List Char} {i : ℕ} {anns : List Ann} {b : Best}
    (h : pickBest src i anns = some b) : b.matchLen ≤ src.length - i := by
  have hg := (pickBest_good h).1
  have hle := matchesAt_len_le hg.1
  have h2 := hg.2
  omega

lemma wordEndAux_ge : ∀ (l : List Char) (j : ℕ), j ≤ wordEndAux l j := by
  intro l
  induction l with
  | nil => intro j; exact le_refl j
  | cons c r ih =>
    intro j
    unfold wordEndAux
    split
    · exact le_refl j
    · exact le_trans (Nat.le_succ j) (ih (j + 1))

lemma wordEndAux_le : ∀ (l : List Char) (j : ℕ), wordEndAux l j ≤ j + l.length := by
  intro l
  induction l with
  | nil => intro j; simp [wordEndAux]
  | cons c r ih =>
    intro j
    unfold wordEndAux
    split
    · simp
    · have := ih (j + 1)
      simp only [List.length_cons]
      omega

lemma wordEnd_ge (src : List Char) (j : ℕ) : j ≤ wordEnd src j :=
  wordEndAux_ge (src.drop j) j

lemma wordEnd_le (src : List Char) (j : ℕ) : wordEnd src j ≤ max j src.length := by
  have := wordEndAux_le (src.drop j) j
  have hd : (src.drop j).length = src.length - j := List.length_drop j src
  unfold wordEnd
  omega

lemma wordEnd_gt {src : List Char} {j : ℕ} (h : j < src.length)
    (hw : ¬ isJsSpace (src.get ⟨j, h⟩) = true) : j < wordEnd src j := by
  unfold wordEnd
  rw [List.drop_eq_get_cons h]
  unfold wordEndAux
  split
  · next hws => exact absurd hws hw
  · have := wordEndAux_ge (src.drop (j + 1)) (j + 1)
    omega

/-- The main scan loop of `renderHeatText`, structurally recursive on a
fuel bound: while `i < len`, emit a whitespace character span, a selected
highlight span, or a plain token span, and advance past it.  Every
iteration advances `i` by at least one, so `src.length` fuel always
completes the scan. -/
def renderLoop (src : List Char) (anns : List Ann) : ℕ → ℕ → List Span
  | 0, _ => []
  | fuel + 1, i =>
    if h : i < src.length then
      if isJsSpace (src.get ⟨i, h⟩) then
        Span.ws [src.get ⟨i, h⟩] :: renderLoop src anns fuel (i + 1)
      else
        match pickBest src i anns with
        | some b =>
          Span.highlight (segmentAt src i b.matchLen) b.ann.color b.ann.source ::
            renderLoop src anns fuel (i + b.matchLen)
        | none =>
          Span.plain (segmentAt src i (wordEnd src i - i)) ::
            renderLoop src anns fuel (wordEnd src i)
    else []

/-- `renderHeatText`'s span output for a text and a merged candidate list
(`out` in the source; the `if (!text) return null` guard yields no spans,
exactly as the scan does on an empty text). -/
def renderSpans (src : List Char) (anns : List Ann) : List Span :=
  renderLoop src anns src.length 0

/-- Partition property of the scan loop: span texts are nonempty and
concatenate to the remaining text. -/
lemma renderLoop_spec (src : List Char) (anns : List Ann) :
    ∀ (fuel i : ℕ), src.length - i ≤ fuel →
      (((renderLoop src anns fuel i).map Span.text).flatten = src.drop i ∧
       ∀ s ∈ renderLoop src anns fuel i, s.text ≠ []) := by
  intro fuel
  induction fuel with
  | zero =>
    intro i hfi
    constructor
    · simp only [renderLoop, List.map_nil, List.flatten_nil]
      symm
      exact List.drop_eq_nil_of_le (by omega)
    · intro s hs
      simp [renderLoop] at hs
  | succ fuel ih =>
    intro i hfi
    rw [renderLoop]
    by_cases h : i < src.length
    · rw [dif_pos h]
      by_cases hws : isJsSpace (src.get ⟨i, h⟩) = true
      · rw [if_pos hws]
        obtain ⟨ihc, ihn⟩ := ih (i + 1) (by omega)
        constructor
        · simp only [List.map_cons, List.flatten_cons, Span.text, ihc]
          rw [List.drop_eq_get_cons h]
          rfl
        · intro s hs
          rcases List.mem_cons.mp hs with rfl | hs'
          · simp [Span.text]
          · exact ihn s hs'
      · rw [if_neg hws]
        rcases hp : pickBest src i anns with _ | b
        · -- plain token run
          have hgt : i < wordEnd src i := wordEnd_gt h hws
          have hle : wordEnd src i ≤ src.length := by
            have := wordEnd_le src i
            omega
          obtain ⟨ihc, ihn⟩ := ih (wordEnd src i) (by omega)
          constructor
          · simp only [List.map_cons, List.flatten_cons, Span.text, ihc, segmentAt]
            have : src.drop (wordEnd src i) = (src.drop i).drop (wordEnd src i - i) := by
              rw [List.drop_drop]
              congr 1
              omega
            rw [this, List.take_append_drop]
          · intro s hs
            rcases List.mem_cons.mp hs with rfl | hs'
            · simp only [Span.text, segmentAt, ne_eq, ← List.length_pos]
              simp only [List.length_take, List.length_drop]
              omega
            · exact ihn s hs'
        · -- highlight span
          have hpos : 0 < b.matchLen := pickBest_matchLen_pos hp
          have hlen : b.matchLen ≤ src.length - i := pickBest_matchLen_le hp
          obtain ⟨ihc, ihn⟩ := ih (i + b.matchLen) (by omega)
          constructor
          · simp only [List.map_cons, List.flatten_cons, Span.text, ihc, segmentAt]
            have : src.drop (i + b.matchLen) = (src.drop i).drop b.matchLen := by
              rw [List.drop_drop, Nat.add_comm]
            rw [this, List.take_append_drop]
          · intro s hs
            rcases List.mem_cons.mp hs with rfl | hs'
            · simp only [Span.text, segmentAt, ne_eq, ← List.length_pos]
              simp only [List.length_take, List.length_drop]
              omega
            · exact ihn s hs'
    · rw [dif_neg h]
      constructor
      · simp only [List.map_nil, List.flatten_nil]
        symm
        exact List.drop_eq_nil_of_le (by omega)
      · intro s hs
        simp at hs

/-- Spans paired with their start offsets, accumulating text lengths. -/
def spansFrom (i : ℕ) : List Span → List (ℕ × Span)
  | [] => []
  | s :: r => (i, s) :: spansFrom (i + s.text.length) r

/-- Offsets of consecutive spans are adjacent: each span starts exactly
where the previous one ends. -/
lemma spansFrom_chain (i : ℕ) (l : List Span) :
    List.Chain' (fun p q : ℕ × Span => p.1 + p.2.text.length = q.1)
      (spansFrom i l) := by
  induction l generalizing i with
  | nil => exact List.chain'_nil
  | cons s r ih =>
    rw [spansFrom]
    rcases r with _ | ⟨s2, r2⟩
    · simp [spansFrom]
    · rw [spansFrom]
      refine List.Chain'.cons rfl ?_
      have := ih (i + s.text.length)
      rw [spansFrom] at this
      exact this

/-- Every highlighted span of the scan sits at a position where its
originating candidate matches: it comes from a candidate of the list,
its lowercased text is that candidate's phrase key, and both boundary
conditions hold at its edges. -/
lemma renderLoop_highlight_spec (src : List Char) (anns : List Ann) :
    ∀ (fuel i : ℕ), src.length - i ≤ fuel →
      ∀ (p : ℕ) (t : List Char) (c : ColorVal) (so : Source),
        (p, Span.highlight t c so) ∈ spansFrom i (renderLoop src anns fuel i) →
        ∃ a ∈ anns, matchesAt src p a ∧ lowerStr t = a.phraseLower ∧
          t.length = a.phraseLower.length ∧ c = a.color ∧ so = a.source ∧
          isStartBoundary src p = true ∧
          isEndBoundary src (p + t.length) = true := by
  intro fuel
  induction fuel with
  | zero =>
    intro i hfi p t c so hmem
    simp [renderLoop, spansFrom] at hmem
  | succ fuel ih =>
    intro i hfi p t c so hmem
    rw [renderLoop] at hmem
    by_cases h : i < src.length
    · rw [dif_pos h] at hmem
      by_cases hws : isJsSpace (src.get ⟨i, h⟩) = true
      · rw [if_pos hws] at hmem
        rw [spansFrom] at hmem
        rcases List.mem_cons.mp hmem with he | hmem'
        · cases he
        · exact ih (i + 1) (by omega) p t c so (by simpa [Span.text] using hmem')
      · rw [if_neg hws] at hmem
        rcases hp : pickBest src i anns with _ | b <;> rw [hp] at hmem
        · -- plain-token branch: head is not a highlight
          rw [spansFrom] at hmem
          rcases List.mem_cons.mp hmem with he | hmem'
          · cases he
          · have hgt : i < wordEnd src i := wordEnd_gt h hws
            have hle : wordEnd src i ≤ src.length := by
              have := wordEnd_le src i
              omega
            have hlen : (Span.plain (segmentAt src i (wordEnd src i - i))).text.length
                = wordEnd src i - i := by
              simp only [Span.text, segmentAt, List.length_take, List.length_drop]
              omega
            rw [hlen] at hmem'
            have : i + (wordEnd src i - i) = wordEnd src i := by omega
            rw [this] at hmem'
            exact ih (wordEnd src i) (by omega) p t c so hmem'
        · -- highlight branch
          have hpos : 0 < b.matchLen := pickBest_matchLen_pos hp
          have hbl : b.matchLen ≤ src.length - i := pickBest_matchLen_le hp
          obtain ⟨hgood, hmemb, _⟩ := pickBest_good hp
          have htlen : (segmentAt src i b.matchLen).length = b.matchLen := by
            simp only [segmentAt, List.length_take, List.length_drop]
            omega
          rw [spansFrom] at hmem
          rcases List.mem_cons.mp hmem with he | hmem'
          · have hp1 : p = i := by cases he; rfl
            have ht : t = segmentAt src i b.matchLen := by cases he; rfl
            have hc : c = b.ann.color := by cases he; rfl
            have hso : so = b.ann.source := by cases he; rfl
            subst hp1
            refine ⟨b.ann, hmemb, hgood.1, ?_, ?_, hc, hso, ?_, ?_⟩
            · rw [ht, hgood.2]
              exact hgood.1.2.1
            · rw [ht, htlen, hgood.2]
            · exact hgood.1.2.2.1
            · rw [ht, htlen, hgood.2]
              exact hgood.1.2.2.2
          · rw [Span.text, htlen] at hmem'
            exact ih (i + b.matchLen) (by omega) p t c so hmem'
    · rw [dif_neg h] at hmem
      simp [spansFrom] at hmem

/-- A user-marked phrase entry of `heatMap`: `{ phrase, color }`. -/
structure UserAnn where
  phrase : List Char
  color : ColorVal
deriving DecidableEq

/-- An automatic annotation `{ phrase, color, score }`. -/
structure AutoAnn where
  phrase : List Char
  color : ColorVal
  score : ℚ
deriving DecidableEq

/-- `heatMap.map(a => ({ phrase, phraseLower, color, source: "user" }))`. -/
def mkUserAnn (a : UserAnn) : Ann :=
  ⟨a.phrase, lowerStr a.phrase, a.color, Source.user⟩

/-- `autoAnnotations.map(a => ({ phrase, phraseLower, color, source: "auto" }))`. -/
def mkAutoAnn (a : AutoAnn) : Ann :=
  ⟨a.phrase, lowerStr a.phrase, a.color, Source.auto⟩

/-- Backward scan of the live-annotation derivation:
`while (s > 0 && !/\s/.test(src[s - 1])) s -= 1`. -/
def tokenStart (src : List Char) : ℕ → ℕ
  | 0 => 0
  | s + 1 =>
    match src.get? s with
    | some c => if isJsSpace c then s + 1 else tokenStart src s
    | none => tokenStart src s

/-- The live annotation derived from the caret position in `renderHeatText`:
extend over the enclosing non-whitespace token, trim it, skip it when it is
already a user phrase, and score it with the connotation scorer. -/
def deriveLiveAnn (src : List Char) (heatMap : List UserAnn) (caret : ℕ) :
    Option Ann :=
  let s := tokenStart src caret
  let e := wordEnd src caret
  let current := jsTrim (segmentAt src s (e - s))
  if current = [] then none
  else
    let low := lowerStr current
    if (heatMap.map (fun u => lowerStr u.phrase)).contains low then none
    else
      let scoreMap := computeConnotationScoresForWords [current]
      let score := (mapGet scoreMap low).getD 0
      some ⟨current, low, scoreToColor score, Source.live⟩

/-- The merged candidate list of `renderHeatText`:
`[...userAnns, ...(liveAnn ? [liveAnn] : []), ...autoAnns]`. -/
def mergedAnns (heatMap : List UserAnn) (liveAnn : Option Ann)
    (autoAnns : List AutoAnn) : List Ann :=
  heatMap.map mkUserAnn ++
    (match liveAnn with
     | some l => [l]
     | none => []) ++
    autoAnns.map mkAutoAnn

/-- `renderHeatText` from App: derive the live annotation from the caret
(when auto-annotation and live updates are enabled and a caret position is
available), merge the three sources, and scan the text into spans.  The
`if (!text) return null` guard yields no spans, as does the scan itself on
an empty text. -/
def renderHeatText (src : List Char) (heatMap : List UserAnn)
    (autoAnns : List AutoAnn) (caret : Option ℕ)
    (autoEnabled autoLive : Bool) : List Span :=
  let liveAnn :=
    match caret with
    | some k => if autoEnabled && autoLive then deriveLiveAnn src heatMap k else none
    | none => none
  renderSpans src (mergedAnns heatMap liveAnn autoAnns)

/-- C1: for every text and every set of user, live and auto annotations,
the span sequence produced by the merge/render engine is ordered and
non-overlapping — every span is nonempty and each span starts exactly where
the previous one ends — and the concatenation of the span texts is exactly
the input text. -/
theorem C1_render_partition (src : List Char) (heatMap : List UserAnn)
    (autoAnns : List AutoAnn) (caret : Option ℕ) (autoEnabled autoLive : Bool) :
    (((renderHeatText src heatMap autoAnns caret autoEnabled autoLive).map
        Span.text).flatten = src) ∧
    (∀ s ∈ renderHeatText src heatMap autoAnns caret autoEnabled autoLive,
      s.text ≠ []) ∧
    List.Chain' (fun p q : ℕ × Span => p.1 + p.2.text.length = q.1)
      (spansFrom 0 (renderHeatText src heatMap autoAnns caret autoEnabled autoLive)) := by
  have hspec := renderLoop_spec src
    (mergedAnns heatMap
      (match caret with
       | some k => if autoEnabled && autoLive then deriveLiveAnn src heatMap k else none
       | none => none)
      autoAnns) src.length 0 (by omega)
  refine ⟨?_, ?_, ?_⟩
  · have := hspec.1
    simpa [renderHeatText, renderSpans] using this
  · intro s hs
    exact hspec.2 s (by simpa [renderHeatText, renderSpans] using hs)
  · exact spansFrom_chain 0 _

/-- C2: when the merge engine selects a candidate at a scan position, that
candidate matches with both boundary conditions, every boundary-satisfying
matching candidate is at most as long, and among equally long matching
candidates the selected one has maximal source precedence
(user over live over auto). -/
theorem C2_longest_match_precedence (src : List Char) (anns : List Ann)
    (i : ℕ) (b : Best) (h : pickBest src i anns = some b) :
    b.ann ∈ anns ∧ matchesAt src i b.ann ∧
    b.matchLen = b.ann.phraseLower.length ∧
    ∀ a ∈ anns, matchesAt src i a →
      a.phraseLower.length ≤ b.matchLen ∧
      (a.phraseLower.length = b.matchLen →
        precedence a.source ≤ precedence b.ann.source) := by
  obtain ⟨hgood, hmem, hdom⟩ := pickBest_good h
  refine ⟨hmem, hgood.1, hgood.2, ?_⟩
  intro a ha hma
  have hd := hdom a ha hma
  unfold dominates at hd
  constructor
  · omega
  · intro he
    rcases hd with h' | h'
    · omega
    · exact h'.2

theorem C2_witness :
    (Best.mk (mkUserAnn ⟨"new york".toList, ColorVal.css "#aabbcc"⟩) 8).ann ∈
      [mkUserAnn ⟨"york".toList, ColorVal.css "#f58529"⟩,
       mkUserAnn ⟨"new york".toList, ColorVal.css "#aabbcc"⟩] ∧
    matchesAt "new york".toList 0
      (Best.mk (mkUserAnn ⟨"new york".toList, ColorVal.css "#aabbcc"⟩) 8).ann ∧
    (Best.mk (mkUserAnn ⟨"new york".toList, ColorVal.css "#aabbcc"⟩) 8).matchLen =
      (Best.mk (mkUserAnn ⟨"new york".toList, ColorVal.css "#aabbcc"⟩) 8).ann.phraseLower.length ∧
    ∀ a ∈ [mkUserAnn ⟨"york".toList, ColorVal.css "#f58529"⟩,
           mkUserAnn ⟨"new york".toList, ColorVal.css "#aabbcc"⟩],
      matchesAt "new york".toList 0 a →
      a.phraseLower.length ≤
        (Best.mk (mkUserAnn ⟨"new york".toList, ColorVal.css "#aabbcc"⟩) 8).matchLen ∧
      (a.phraseLower.length =
          (Best.mk (mkUserAnn ⟨"new york".toList, ColorVal.css "#aabbcc"⟩) 8).matchLen →
        precedence a.source ≤
          precedence (Best.mk (mkUserAnn ⟨"new york".toList, ColorVal.css "#aabbcc"⟩) 8).ann.source) :=
  C2_longest_match_precedence "new york".toList
    [mkUserAnn ⟨"york".toList, ColorVal.css "#f58529"⟩,
     mkUserAnn ⟨"new york".toList, ColorVal.css "#aabbcc"⟩] 0
    (Best.mk (mkUserAnn ⟨"new york".toList, ColorVal.css "#aabbcc"⟩) 8) (by decide)

/-- C5: a phrase is highlighted only where both boundary conditions hold —
the character before the match start (or start of text) and the character
after the match end (or end of text) are whitespace or fixed punctuation —
and consequently the phrase "cat" is never highlighted inside the word
"category": that text renders as a single plain span. -/
theorem C5_boundary_law :
    (∀ (src : List Char) (anns : List Ann) (p : ℕ) (t : List Char)
        (c : ColorVal) (so : Source),
      (p, Span.highlight t c so) ∈ spansFrom 0 (renderSpans src anns) →
      isStartBoundary src p = true ∧ isEndBoundary src (p + t.length) = true) ∧
    renderSpans "category".toList [mkUserAnn ⟨"cat".toList, ColorVal.css "#f58529"⟩]
      = [Span.plain "category".toList] := by
  constructor
  · intro src anns p t c so hmem
    obtain ⟨a, _, _, _, _, _, _, hsb, heb⟩ :=
      renderLoop_highlight_spec src anns src.length 0 (by omega) p t c so hmem
    exact ⟨hsb, heb⟩
  · decide

theorem C5_witness :
    isStartBoundary "a cat".toList 2 = true ∧
    isEndBoundary "a cat".toList (2 + "cat".toList.length) = true :=
  C5_boundary_law.1 "a cat".toList
    [mkUserAnn ⟨"cat".toList, ColorVal.css "#f58529"⟩] 2 "cat".toList
    (ColorVal.css "#f58529") Source.user (by decide)

/-- The candidate loop keeps an accumulator that already beats or ties
every remaining matching candidate. -/
lemma scanBest_keep (src : List Char) (i : ℕ) :
    ∀ (anns : List Ann) (b : Best),
      (∀ x ∈ anns, matchesAt src i x → dominates b x) →
      scanBest src i anns (some b) = some b := by
  intro anns
  induction anns with
  | nil => intro b _; rfl
  | cons a r ih =>
    intro b hdom
    rw [scanBest]
    by_cases hm : matchesAt src i a
    · have hd := hdom a (List.mem_cons_self a r) hm
      unfold dominates at hd
      have hstep : considerAnn src i (some b) a = some b := by
        rw [considerAnn_eq, if_pos hm]
        have h1 : ¬ (b.matchLen < a.phraseLower.length) := by omega
        have h2 : ¬ (a.phraseLower.length = b.matchLen ∧
            precedence b.ann.source < precedence a.source) := by
          rintro ⟨he, hp⟩
          rcases hd with h' | h'
          · omega
          · omega
        simp [h1, h2]
      rw [hstep]
      exact ih b (fun x hx hmx => hdom x (List.mem_cons_of_mem a hx) hmx)
    · have hstep : considerAnn src i (some b) a = some b := by
        rw [considerAnn_eq, if_neg hm]
      rw [hstep]
      exact ih b (fun x hx hmx => hdom x (List.mem_cons_of_mem a hx) hmx)

/-- C8 counterexample: the engine's equal-length, equal-precedence
tie-break is the supplied candidate order, not a lexicographic choice —
permuting two identical-phrase auto candidates with different colors
changes which annotation is selected. -/
theorem C8_counterexample :
    renderSpans "a".toList
        [mkAutoAnn ⟨"a".toList, ColorVal.css "red", 0⟩,
         mkAutoAnn ⟨"a".toList, ColorVal.css "blue", 0⟩]
      = [Span.highlight "a".toList (ColorVal.css "red") Source.auto] ∧
    renderSpans "a".toList
        [mkAutoAnn ⟨"a".toList, ColorVal.css "blue", 0⟩,
         mkAutoAnn ⟨"a".toList, ColorVal.css "red", 0⟩]
      = [Span.highlight "a".toList (ColorVal.css "blue") Source.auto] ∧
    ColorVal.css "red" ≠ ColorVal.css "blue" := by
  refine ⟨by decide, by decide, by decide⟩

/-- C8 (amended): when two boundary-satisfying candidates of equal match
length and equal source precedence match at the same position, their
lowercased phrases necessarily coincide, and the engine selects the
earliest such candidate in the supplied order — so a permutation can
change only which annotation object (e.g. its color) carries the span,
never the matched text. -/
theorem C8_tie_break (src : List Char) (i : ℕ) :
    (∀ a a' : Ann, matchesAt src i a → matchesAt src i a' →
      a.phraseLower.length = a'.phraseLower.length →
      a.phraseLower = a'.phraseLower) ∧
    (∀ (a : Ann) (anns : List Ann), matchesAt src i a →
      (∀ x ∈ anns, matchesAt src i x →
        x.phraseLower.length < a.phraseLower.length ∨
        (x.phraseLower.length = a.phraseLower.length ∧
         precedence x.source ≤ precedence a.source)) →
      pickBest src i (a :: anns) = some ⟨a, a.phraseLower.length⟩) := by
  constructor
  · intro a a' hm hm' hlen
    have h1 := hm.2.1
    have h2 := hm'.2.1
    rw [← h1, ← h2, hlen]
  · intro a anns hm hdom
    unfold pickBest
    rw [scanBest]
    have hstep : considerAnn src i none a = some ⟨a, a.phraseLower.length⟩ := by
      rw [considerAnn_eq, if_pos hm]
    rw [hstep]
    apply scanBest_keep
    intro x hx hmx
    unfold dominates
    rcases hdom x hx hmx with h' | h'
    · exact Or.inl h'
    · exact Or.inr ⟨h'.1, h'.2⟩

theorem C8_witness :
    pickBest "a".toList 0
        [mkAutoAnn ⟨"a".toList, ColorVal.css "red", 0⟩,
         mkAutoAnn ⟨"a".toList, ColorVal.css "blue", 0⟩]
      = some ⟨mkAutoAnn ⟨"a".toList, ColorVal.css "red", 0⟩,
          (mkAutoAnn ⟨"a".toList, ColorVal.css "red", 0⟩).phraseLower.length⟩ :=
  (C8_tie_break "a".toList 0).2
    (mkAutoAnn ⟨"a".toList, ColorVal.css "red", 0⟩)
    [mkAutoAnn ⟨"a".toList, ColorVal.css "blue", 0⟩]
    (by decide) (by decide)

/-- One recorded history entry: a full text snapshot and its timestamp in
milliseconds (`performance.now()`). -/
structure HistoryEntry where
  value : List Char
  time : ℚ
deriving DecidableEq

/-- The App state relevant to typing, history and replay. -/
structure AppState where
  text : List Char
  history : List HistoryEntry
  replaying : Bool
  replayIndex : ℕ
deriving DecidableEq

/-- `handleChange`: record a snapshot and set the text.  The textarea is
rendered with `disabled={replaying}`, so while a replay is running the
change event cannot fire; the guard models that rejection. -/
def handleChange (s : AppState) (v : List Char) (t : ℚ) : AppState :=
  if s.replaying then s
  else { s with text := v, history := s.history ++ [⟨v, t⟩] }

/-- `startReplay`: no-op on empty history, else reset the cursor, clear the
text and enter the replaying state. -/
def startReplay (s : AppState) : AppState :=
  if s.history.length = 0 then s
  else { s with replaying := true, replayIndex := 0, text := [] }

/-- `history[i]` with the out-of-range default. -/
def entryAt (history : List HistoryEntry) (i : ℕ) : HistoryEntry :=
  (history.get? i).getD ⟨[], 0⟩

/-- One firing of the replay effect: do nothing when idle; leave the
replaying state at the end of history; otherwise, after the step delay
(`replayIndex === 0 ? 100 : frame.time - prev.time`, passed through
`Math.min(delay, 200)` and the timer's clamp of negative delays to 0),
apply the frame text and advance the cursor.  Returns the new state and
the effective delay of the applied step, if any. -/
def replayTick (s : AppState) : AppState × Option ℚ :=
  if s.replaying = false then (s, none)
  else if h : s.replayIndex < s.history.length then
    let frame := s.history.get ⟨s.replayIndex, h⟩
    let delay : ℚ :=
      if s.replayIndex = 0 then 100
      else frame.time - (entryAt s.history (s.replayIndex - 1)).time
    ({ s with text := frame.value, replayIndex := s.replayIndex + 1 },
      some (max 0 (min delay 200)))
  else ({ s with replaying := false }, none)

/-- Run the replay effect until it stops producing steps, collecting the
(delay, text) pairs of the applied steps. -/
def replayRun : ℕ → AppState → List (ℚ × List Char)
  | 0, _ => []
  | n + 1, s =>
    match replayTick s with
    | (s1, some d) => (d, s1.text) :: replayRun n s1
    | (_, none) => []

/-- Iterate the replay effect, keeping only the state. -/
def ticksFrom : ℕ → AppState → AppState
  | 0, s => s
  | n + 1, s => ticksFrom n (replayTick s).1

/-- The delay before step `i` as the claim states it: 100 ms for the first
step, otherwise `min(200, history[i].time - history[i-1].time)` with
negative deltas clamped to 0. -/
def claimDelay (history : List HistoryEntry) (i : ℕ) : ℚ :=
  if i = 0 then 100
  else max 0 (min 200 ((entryAt history i).time - (entryAt history (i - 1)).time))

/-- The reference replay trace of the claim: the history entries visited
strictly in original order, each preceded by its step delay. -/
def traceFrom (history : List HistoryEntry) : ℕ → ℕ → List (ℚ × List Char)
  | 0, _ => []
  | m + 1, k =>
    (claimDelay history k, (entryAt history k).value) ::
      traceFrom history m (k + 1)

/-- The full reference replay trace. -/
def claimTrace (history : List HistoryEntry) : List (ℚ × List Char) :=
  traceFrom history history.length 0

lemma replayTick_history (s : AppState) : (replayTick s).1.history = s.history := by
  unfold replayTick
  split
  · rfl
  · split
    · rfl
    · rfl

lemma replayRun_eq (hist : List HistoryEntry) :
    ∀ (m k : ℕ) (text : List Char), hist.length - k = m →
      ∀ n, m < n → replayRun n ⟨text, hist, true, k⟩ = traceFrom hist m k := by
  intro m
  induction m with
  | zero =>
    intro k text hk n hn
    rcases n with _ | n
    · omega
    · rw [replayRun]
      have htick : replayTick ⟨text, hist, true, k⟩
          = (⟨text, hist, false, k⟩, none) := by
        unfold replayTick
        rw [if_neg (by simp)]
        rw [dif_neg (by simp; omega)]
      rw [htick]
      rfl
  | succ m ihm =>
    intro k text hk n hn
    rcases n with _ | n
    · omega
    · rw [replayRun]
      have hlt : k < hist.length := by omega
      have htick : replayTick ⟨text, hist, true, k⟩
          = (⟨(hist.get ⟨k, hlt⟩).value, hist, true, k + 1⟩,
              some (max 0 (min (if k = 0 then 100
                else (hist.get ⟨k, hlt⟩).time - (entryAt hist (k - 1)).time) 200))) := by
        unfold replayTick
        rw [if_neg (by simp)]
        rw [dif_pos hlt]
      rw [htick]
      dsimp only
      rw [traceFrom]
      have hval : (entryAt hist k).value = (hist.get ⟨k, hlt⟩).value := by
        unfold entryAt
        rw [List.get?_eq_get hlt]
        rfl
      have hdelay : claimDelay hist k
          = max 0 (min (if k = 0 then 100
              else (hist.get ⟨k, hlt⟩).time - (entryAt hist (k - 1)).time) 200) := by
        unfold claimDelay
        by_cases hk0 : k = 0
        · rw [if_pos hk0, if_pos hk0]
          norm_num
        · rw [if_neg hk0, if_neg hk0]
          have htime : (entryAt hist k).time = (hist.get ⟨k, hlt⟩).time := by
            unfold entryAt
            rw [List.get?_eq_get hlt]
            rfl
          rw [htime, min_comm]
      rw [hval, hdelay, ihm (k + 1) ((hist.get ⟨k, hlt⟩).value) (by omega) n (by omega)]

/-- C3: replay visits the recorded entries strictly in original order, and
the delay before step `i` is 100 ms for the first step and otherwise
`min(200 ms, history[i].time - history[i-1].time)` with negative deltas
clamped to 0; in particular the recorded history
`[{a,0},{ab,40},{a,900}]` replays with delays `[100, 40, 200]`. -/
theorem C3_replay_trace :
    (∀ (text : List Char) (hist : List HistoryEntry) (idx : ℕ),
      replayRun (hist.length + 1) (startReplay ⟨text, hist, false, idx⟩)
        = claimTrace hist) ∧
    replayRun 4 (startReplay ⟨[], [⟨"a".toList, 0⟩, ⟨"ab".toList, 40⟩,
        ⟨"a".toList, 900⟩], false, 0⟩)
      = [(100, "a".toList), (40, "ab".toList), (200, "a".toList)] := by
  have hmain : ∀ (text : List Char) (hist : List HistoryEntry) (idx : ℕ),
      replayRun (hist.length + 1) (startReplay ⟨text, hist, false, idx⟩)
        = claimTrace hist := by
    intro text hist idx
    unfold startReplay
    by_cases h0 : hist.length = 0
    · rw [if_pos h0]
      rcases hist with _ | ⟨e, r⟩
      · rw [replayRun]
        have : replayTick ⟨text, [], false, idx⟩ = (⟨text, [], false, idx⟩, none) := by
          unfold replayTick
          rw [if_pos (by simp)]
        rw [this]
        rfl
      · simp at h0
    · rw [if_neg h0]
      have := replayRun_eq hist hist.length 0 [] (by omega) (hist.length + 1) (by omega)
      exact this
  refine ⟨hmain, ?_⟩
  rw [show (4 : ℕ) = [(⟨"a".toList, 0⟩ : HistoryEntry), ⟨"ab".toList, 40⟩,
        ⟨"a".toList, 900⟩].length + 1 from rfl]
  rw [hmain [] [⟨"a".toList, 0⟩, ⟨"ab".toList, 40⟩, ⟨"a".toList, 900⟩] 0]
  simp only [claimTrace, traceFrom, claimDelay, entryAt, List.get?, List.length_cons,
    List.length_nil, Option.getD_some]
  norm_num [min_def, max_def]

/-- C9: replay never appends to history — after starting a replay and
running any number of replay steps the history is unchanged — and while
the scheduler is replaying, direct user edits are rejected. -/
theorem C9_replay_preserves_history :
    (∀ (s : AppState) (n : ℕ),
      (ticksFrom n (startReplay s)).history = s.history) ∧
    (∀ (s : AppState) (v : List Char) (t : ℚ),
      s.replaying = true → handleChange s v t = s) := by
  constructor
  · intro s n
    have hstart : (startReplay s).history = s.history := by
      unfold startReplay
      split
      · rfl
      · rfl
    rw [← hstart]
    generalize startReplay s = s0
    induction n generalizing s0 with
    | zero => rfl
    | succ n ihn =>
      rw [ticksFrom]
      rw [ihn ((replayTick s0).1)]
      exact replayTick_history s0
  · intro s v t hr
    unfold handleChange
    rw [if_pos hr]

theorem C9_witness :
    handleChange ⟨"x".toList, [], true, 0⟩ "xy".toList 5 = ⟨"x".toList, [], true, 0⟩ ∧
    (ticksFrom 2 (startReplay ⟨"x".toList, [⟨"x".toList, 3⟩], false, 0⟩)).history
      = [(⟨"x".toList, 3⟩ : HistoryEntry)] :=
  ⟨C9_replay_preserves_history.2 ⟨"x".toList, [], true, 0⟩ "xy".toList 5 rfl,
   C9_replay_preserves_history.1 ⟨"x".toList, [⟨"x".toList, 3⟩], false, 0⟩ 2⟩

/-- The result of `runAnalysis`. -/
structure AnalysisResult where
  durationMs : ℚ
  avgSpeed : ℤ
  bursts : ℕ
  pauses : ℕ
  deletions : ℕ
  flowIndex : ℚ
  stressIndex : ℚ
  energyIndex : ℚ
deriving DecidableEq

/-- `runAnalysis` from App: `null` on empty history; otherwise duration
over the `filter(Boolean)`-kept (nonzero) timestamps, consecutive deltas
`(cur.time||0) - (prev.time||0)` (the `dt || 0` write-back only replaces a
zero by itself over ℚ), deletions as length-shrinking pairs, rounded mean
speed, burst/pause counts, and the three clamped indices. -/
def runAnalysis (history : List HistoryEntry) : Option AnalysisResult :=
  if history.length = 0 then none
  else
    let times := (history.map (fun h => h.time)).filter (fun t => ¬ t = 0)
    let durationMs :=
      if 2 ≤ times.length then times.getLast?.getD 0 - times.head?.getD 0 else 0
    let pairs := history.zip history.tail
    let deltas := pairs.map (fun pc => pc.2.time - pc.1.time)
    let deletions := (pairs.filter (fun pc => pc.2.value.length < pc.1.value.length)).length
    let avgSpeed : ℤ :=
      if 0 < deltas.length then jsRound (deltas.sum / (deltas.length : ℚ)) else 0
    let bursts := (deltas.filter (fun d => d < 120)).length
    let pauses := (deltas.filter (fun d => 600 < d)).length
    let flowIndex := max 0 (min 100 (100 - (avgSpeed : ℚ) / 10))
    let stressIndex :=
      max 0 (min 100 ((deletions : ℚ) / ((max 1 history.length : ℕ) : ℚ) * 100))
    let energyIndex :=
      max 0 (min 100 ((bursts : ℚ) / ((max 1 history.length : ℕ) : ℚ) * 100))
    some ⟨durationMs, avgSpeed, bursts, pauses, deletions,
      flowIndex, stressIndex, energyIndex⟩

/-- The analysis result exactly as the claim states it: duration from first
to last entry timestamp (all entries), per-pair delta `max(0, cur - prev)`,
and otherwise the same aggregation formulas. -/
def claimAnalysis (history : List HistoryEntry) : Option AnalysisResult :=
  if history.length = 0 then none
  else
    let durationMs :=
      if 2 ≤ history.length then
        (entryAt history (history.length - 1)).time - (entryAt history 0).time
      else 0
    let pairs := history.zip history.tail
    let deltas := pairs.map (fun pc => max 0 (pc.2.time - pc.1.time))
    let deletions := (pairs.filter (fun pc => pc.2.value.length < pc.1.value.length)).length
    let avgSpeed : ℤ :=
      if 0 < deltas.length then jsRound (deltas.sum / (deltas.length : ℚ)) else 0
    let bursts := (deltas.filter (fun d => d < 120)).length
    let pauses := (deltas.filter (fun d => 600 < d)).length
    let flowIndex := max 0 (min 100 (100 - (avgSpeed : ℚ) / 10))
    let stressIndex := max 0 (min 100 ((deletions : ℚ) / (history.length : ℚ) * 100))
    let energyIndex := max 0 (min 100 ((bursts : ℚ) / (history.length : ℚ) * 100))
    some ⟨durationMs, avgSpeed, bursts, pauses, deletions,
      flowIndex, stressIndex, energyIndex⟩

/-- The analysis result as the claim must be amended to match the code:
duration from first to last nonzero timestamp (0 when fewer than two are
nonzero), per-pair delta `cur.time - prev.time` with negative deltas
retained, and the same aggregation formulas. -/
def amendedAnalysis (history : List HistoryEntry) : Option AnalysisResult :=
  if history.length = 0 then none
  else
    let times := (history.map (fun h => h.time)).filter (fun t => ¬ t = 0)
    let durationMs :=
      if 2 ≤ times.length then
        (times.get? (times.length - 1)).getD 0 - (times.get? 0).getD 0
      else 0
    let pairs := history.zip history.tail
    let deltas := pairs.map (fun pc => pc.2.time - pc.1.time)
    let deletions := (pairs.filter (fun pc => pc.2.value.length < pc.1.value.length)).length
    let avgSpeed : ℤ :=
      if 0 < deltas.length then jsRound (deltas.sum / (deltas.length : ℚ)) else 0
    let bursts := (deltas.filter (fun d => d < 120)).length
    let pauses := (deltas.filter (fun d => 600 < d)).length
    let flowIndex := max 0 (min 100 (100 - (avgSpeed : ℚ) / 10))
    let stressIndex := max 0 (min 100 ((deletions : ℚ) / (history.length : ℚ) * 100))
    let energyIndex := max 0 (min 100 ((bursts : ℚ) / (history.length : ℚ) * 100))
    some ⟨durationMs, avgSpeed, bursts, pauses, deletions,
      flowIndex, stressIndex, energyIndex⟩

/-- C4 counterexample: on `[{a,0},{ab,50}]` the code filters out the zero
timestamp (`filter(Boolean)`), leaving one time, so `durationMs` is 0; the
claim computes `50 - 0 = 50`. -/
theorem C4_counterexample :
    (runAnalysis [⟨"a".toList, 0⟩, ⟨"ab".toList, 50⟩]).map (fun r => r.durationMs)
      = some 0 ∧
    (claimAnalysis [⟨"a".toList, 0⟩, ⟨"ab".toList, 50⟩]).map (fun r => r.durationMs)
      = some 50 ∧
    (0 : ℚ) ≠ 50 := by
  refine ⟨?_, ?_, by norm_num⟩
  · simp only [runAnalysis, List.map_cons, List.map_nil, List.length_cons,
      List.length_nil, entryAt]
    norm_num [List.filter]
  · simp only [claimAnalysis, List.length_cons, List.length_nil, entryAt]
    norm_num [List.get?]

/-- C4 (amended): `runAnalysis` is `null` exactly on the empty history, and
on a non-empty history it returns the reference result with duration taken
over the nonzero timestamps (0 if fewer than two) and per-pair deltas
`cur.time - prev.time` with negative deltas retained; deletions, rounded
mean speed, burst and pause counts, and the clamped indices are as stated;
the given example yields deletions=1, avgSpeed=350, bursts=1, pauses=1. -/
theorem C4_analysis :
    runAnalysis [] = none ∧
    (∀ history : List HistoryEntry, runAnalysis history = amendedAnalysis history) ∧
    (runAnalysis [⟨"a".toList, 0⟩, ⟨"ab".toList, 50⟩, ⟨"a".toList, 700⟩]).map
        (fun r => (r.deletions, r.avgSpeed, r.bursts, r.pauses))
      = some (1, 350, 1, 1) := by
  refine ⟨rfl, ?_, ?_⟩
  · intro history
    by_cases h0 : history.length = 0
    · unfold runAnalysis amendedAnalysis
      rw [if_pos h0, if_pos h0]
    · have h1 : 1 ≤ history.length := by omega
      simp only [runAnalysis, amendedAnalysis, if_neg h0]
      rw [List.getLast?_eq_get?, ← List.get?_zero, Nat.max_eq_right h1]
  · simp only [runAnalysis, List.map_cons, List.map_nil, List.length_cons,
      List.length_nil]
    norm_num [List.filter, jsRound]


lemma alphaOf_scoreToColor (s : ℚ) :
    alphaOf (scoreToColor s) =
      if normalizeScore s = 0 then 0
      else if 0 < normalizeScore s then 3/5 + 7/20 * normalizeScore s
      else 3/5 + 3/10 * (-(normalizeScore s)) := by
  unfold scoreToColor
  by_cases h0 : normalizeScore s = 0
  · simp [h0, alphaOf]
  · by_cases hp : 0 < normalizeScore s
    · simp [h0, hp, alphaOf]
    · simp [h0, hp, alphaOf]

lemma normalizeScore_mono {s t : ℚ} (h : s ≤ t) :
    normalizeScore s ≤ normalizeScore t :=
  max_le_max (le_refl _) (min_le_min (le_refl _) h)

lemma normalizeScore_nonneg {s : ℚ} (h : 0 ≤ s) : 0 ≤ normalizeScore s :=
  le_trans (le_min (by norm_num) h) (le_max_right _ _)

lemma normalizeScore_nonpos {s : ℚ} (h : s ≤ 0) : normalizeScore s ≤ 0 :=
  max_le (by norm_num) (le_trans (min_le_right _ _) h)

/-- C6 counterexample: alpha is not monotone in the score magnitude across
the two ramps — the positive score 9/10 has a smaller magnitude than -1 but
a strictly larger alpha (0.915 versus 0.9). -/
theorem C6_counterexample :
    |(9/10 : ℚ)| ≤ |(-1 : ℚ)| ∧
    alphaOf (scoreToColor (-1)) < alphaOf (scoreToColor (9/10)) := by
  constructor
  · rw [abs_of_nonneg (by norm_num : (0:ℚ) ≤ 9/10),
      abs_of_nonpos (by norm_num : (-1:ℚ) ≤ 0)]
    norm_num
  · rw [alphaOf_scoreToColor, alphaOf_scoreToColor]
    norm_num [normalizeScore, max_def, min_def]

/-- C6 (amended): `scoreToColor 0` is fully transparent, and the alpha
channel is monotonically non-decreasing in the score magnitude within each
ramp — over the nonnegative scores (gold ramp) and over the nonpositive
scores (indigo ramp) separately; across the two independent ramps the
magnitude comparison does not hold. -/
theorem C6_color_alpha :
    scoreToColor 0 = ColorVal.transparent ∧
    (∀ s1 s2 : ℚ, 0 ≤ s1 → s1 ≤ s2 →
      alphaOf (scoreToColor s1) ≤ alphaOf (scoreToColor s2)) ∧
    (∀ s1 s2 : ℚ, s2 ≤ s1 → s1 ≤ 0 →
      alphaOf (scoreToColor s1) ≤ alphaOf (scoreToColor s2)) := by
  refine ⟨?_, ?_, ?_⟩
  · unfold scoreToColor
    rw [if_pos]
    norm_num [normalizeScore]
  · intro s1 s2 h1 h12
    rw [alphaOf_scoreToColor, alphaOf_scoreToColor]
    have hn1 : 0 ≤ normalizeScore s1 := normalizeScore_nonneg h1
    have hn2 : 0 ≤ normalizeScore s2 := normalizeScore_nonneg (le_trans h1 h12)
    have hm : normalizeScore s1 ≤ normalizeScore s2 := normalizeScore_mono h12
    by_cases e1 : normalizeScore s1 = 0
    · rw [if_pos e1]
      by_cases e2 : normalizeScore s2 = 0
      · rw [if_pos e2]
      · rw [if_neg e2, if_pos (by cases lt_or_eq_of_le hn2 with
          | inl h => exact h
          | inr h => exact absurd h.symm e2)]
        linarith
    · rw [if_neg e1, if_pos (lt_of_le_of_ne hn1 (Ne.symm e1))]
      have e2 : ¬ normalizeScore s2 = 0 := by
        intro h
        rw [h] at hm
        exact e1 (le_antisymm hm hn1)
      rw [if_neg e2, if_pos (lt_of_le_of_ne hn2 (Ne.symm e2))]
      linarith
  · intro s1 s2 h21 h10
    rw [alphaOf_scoreToColor, alphaOf_scoreToColor]
    have hn1 : normalizeScore s1 ≤ 0 := normalizeScore_nonpos h10
    have hn2 : normalizeScore s2 ≤ 0 := normalizeScore_nonpos (le_trans h21 h10)
    have hm : normalizeScore s2 ≤ normalizeScore s1 := normalizeScore_mono h21
    by_cases e1 : normalizeScore s1 = 0
    · rw [if_pos e1]
      by_cases e2 : normalizeScore s2 = 0
      · rw [if_pos e2]
      · rw [if_neg e2, if_neg (by intro h; exact e2 (le_antisymm hn2 (le_of_lt h)))]
        have : normalizeScore s2 < 0 := lt_of_le_of_ne hn2 e2
        linarith
    · have hlt1 : normalizeScore s1 < 0 := lt_of_le_of_ne hn1 e1
      rw [if_neg e1, if_neg (by intro h; linarith)]
      have e2 : ¬ normalizeScore s2 = 0 := by
        intro h
        rw [h] at hm
        linarith
      have hlt2 : normalizeScore s2 < 0 := lt_of_le_of_ne hn2 e2
      rw [if_neg e2, if_neg (by intro h; linarith)]
      linarith

theorem C6_witness :
    ((0 : ℚ) ≤ 1/2 ∧ (1/2 : ℚ) ≤ 3/4 ∧
      alphaOf (scoreToColor (1/2)) ≤ alphaOf (scoreToColor (3/4))) ∧
    ((-3/4 : ℚ) ≤ -1/2 ∧ (-1/2 : ℚ) ≤ 0 ∧
      alphaOf (scoreToColor (-1/2)) ≤ alphaOf (scoreToColor (-3/4))) :=
  ⟨⟨by norm_num, by norm_num,
    C6_color_alpha.2.1 (1/2) (3/4) (by norm_num) (by norm_num)⟩,
   ⟨by norm_num, by norm_num,
    C6_color_alpha.2.2 (-1/2) (-3/4) (by norm_num) (by norm_num)⟩⟩

/-- The scorer exactly as the claim states it (no trimming): lowercase the
phrase; an exact lexicon hit returns that value; otherwise average the
lexicon scores of the space-separated tokens found in the lexicon (unknown
tokens contribute nothing, 0 if none is known); clamp to [-1, 1]. -/
def refScoreLiteral (raw : List Char) : ℚ :=
  let w := lowerStr raw
  let value :=
    match lexiconLookup w with
    | some v => v
    | none =>
      let known := (splitWs w).filterMap lexiconLookup
      if known = [] then 0 else known.sum / (known.length : ℚ)
  max (-1) (min 1 value)

/-- The scorer as the claim must be amended to match the code: the phrase
is trimmed and lowercased (a whitespace-only phrase is skipped); an exact
lexicon hit returns that value; otherwise the average of the lexicon
scores of the known space-separated tokens (0 if none); clamped. -/
def refScoreAmended (raw : List Char) : Option (List Char × ℚ) :=
  let w := lowerStr (jsTrim raw)
  if w = [] then none
  else
    let value :=
      match lexiconLookup w with
      | some v => v
      | none =>
        let known := (splitWs w).filterMap lexiconLookup
        if known = [] then 0 else known.sum / (known.length : ℚ)
    some (w, max (-1) (min 1 value))

/-- C7 counterexample: the code trims before the exact-hit lookup, the
claim does not; on the phrase `" not good "` the code hits the multi-word
lexicon entry (-0.6) while the claim's computation averages the known
tokens of the untrimmed string (0.65). -/
theorem C7_counterexample :
    computeConnotationScoresForWords [" not good ".toList]
      = [("not good".toList, -3/5)] ∧
    refScoreLiteral " not good ".toList = 13/20 ∧
    (-3/5 : ℚ) ≠ 13/20 := by
  refine ⟨?_, ?_, by norm_num⟩
  · have h : computeConnotationScoresForWords [" not good ".toList]
        = [("not good".toList, normalizeScore (-3/5))] := rfl
    rw [h]
    norm_num [normalizeScore]
  · have h : refScoreLiteral " not good ".toList
        = max (-1) (min 1 (([(13/20 : ℚ)]).sum / ((([(13/20 : ℚ)]).length : ℕ) : ℚ)))
        := rfl
    rw [h]
    norm_num

lemma scoreWord_eq_ref (raw : List Char) : scoreWord raw = refScoreAmended raw := by
  simp only [scoreWord, refScoreAmended, normalizeScore]
  by_cases hw : lowerStr (jsTrim raw) = []
  · simp [hw]
  · simp only [if_neg hw]
    cases hl : lexiconLookup (lowerStr (jsTrim raw)) with
    | some v => rfl
    | none =>
      simp only []
      cases hk : (splitWs (lowerStr (jsTrim raw))).filterMap lexiconLookup with
      | nil => simp
      | cons q qs => simp

lemma scoreWord_range {raw k : List Char} {v : ℚ}
    (h : scoreWord raw = some (k, v)) : -1 ≤ v ∧ v ≤ 1 := by
  have hbound : ∀ x : ℚ, -1 ≤ normalizeScore x ∧ normalizeScore x ≤ 1 := by
    intro x
    unfold normalizeScore
    exact ⟨le_max_left _ _, max_le (by norm_num) (min_le_left _ _)⟩
  simp only [scoreWord] at h
  by_cases hw : lowerStr (jsTrim raw) = []
  · rw [if_pos hw] at h
    cases h
  · rw [if_neg hw] at h
    cases hl : lexiconLookup (lowerStr (jsTrim raw)) with
    | some q =>
      rw [hl] at h
      simp only [Option.some.injEq, Prod.mk.injEq] at h
      rw [← h.2]
      exact hbound q
    | none =>
      rw [hl] at h
      simp only [Option.some.injEq, Prod.mk.injEq] at h
      rw [← h.2]
      exact hbound _

lemma lexicon_keys_normal :
    ∀ p ∈ LEXICON, lowerStr (jsTrim p.1) = p.1 ∧ p.1 ≠ [] := by
  decide

lemma lexicon_lookup_self : ∀ p ∈ LEXICON, lexiconLookup p.1 = some p.2 := by
  intro p hp
  fin_cases hp <;> rfl

lemma lexicon_values_clamped : ∀ p ∈ LEXICON, normalizeScore p.2 = p.2 := by
  intro p hp
  fin_cases hp <;> norm_num [normalizeScore]

lemma computeOne (raw : List Char) :
    computeConnotationScoresForWords [raw]
      = (match scoreWord raw with
         | none => []
         | some kv => [kv]) := by
  simp only [computeConnotationScoresForWords, List.foldl]
  cases h : scoreWord raw with
  | none => rfl
  | some kv => cases kv; rfl

/-- C7 (amended): the scorer trims and lowercases each phrase (skipping
whitespace-only phrases); an exact lexicon hit returns exactly the lexicon
value; otherwise the average of the lexicon scores of the space-separated
tokens found in the lexicon (unknown tokens contribute nothing, 0 if no
token is known); and every stored score lies in [-1, 1]. -/
theorem C7_scorer :
    (∀ raw : List Char, computeConnotationScoresForWords [raw]
        = (match refScoreAmended raw with
           | none => []
           | some kv => [kv])) ∧
    (∀ p ∈ LEXICON, computeConnotationScoresForWords [p.1] = [(p.1, p.2)]) ∧
    (∀ (raw k : List Char) (v : ℚ),
      computeConnotationScoresForWords [raw] = [(k, v)] → -1 ≤ v ∧ v ≤ 1) := by
  refine ⟨?_, ?_, ?_⟩
  · intro raw
    rw [computeOne, scoreWord_eq_ref]
  · intro p hp
    obtain ⟨hkey, hne⟩ := lexicon_keys_normal p hp
    have hlook : lexiconLookup p.1 = some p.2 := lexicon_lookup_self p hp
    have hclamp : normalizeScore p.2 = p.2 := lexicon_values_clamped p hp
    rw [computeOne]
    have hsw : scoreWord p.1 = some (p.1, normalizeScore p.2) := by
      simp only [scoreWord, hkey, if_neg hne, hlook]
    rw [hsw, hclamp]
  · intro raw k v h
    rw [computeOne] at h
    cases hs : scoreWord raw with
    | none =>
      rw [hs] at h
      cases h
    | some kv =>
      rw [hs] at h
      simp only [List.cons.injEq] at h
      rcases kv with ⟨k', v'⟩
      have : k' = k ∧ v' = v := by
        have := h.1
        exact ⟨congrArg Prod.fst this, congrArg Prod.snd this⟩
      rw [← this.2]
      exact scoreWord_range hs

theorem C7_witness :
    computeConnotationScoresForWords ["happy".toList] = [("happy".toList, 17/20)] ∧
    ((-1 : ℚ) ≤ 17/20 ∧ (17/20 : ℚ) ≤ 1) :=
  ⟨C7_scorer.2.1 ("happy".toList, 17/20)
      (by unfold LEXICON; exact List.mem_cons_self _ _),
   C7_scorer.2.2 "happy".toList "happy".toList (17/20)
     (C7_scorer.2.1 ("happy".toList, 17/20)
       (by unfold LEXICON; exact List.mem_cons_self _ _))⟩

/-- A keyphrase-extractor token character: letters, digits, apostrophes. -/
def isWordTokChar (c : Char) : Bool := c.isAlpha || c.isDigit || c = '\''

/-- A `\w` regular-expression word character (`[A-Za-z0-9_]`). -/
def isRegexWordChar (c : Char) : Bool :=
  ('a' ≤ c && c ≤ 'z') || ('A' ≤ c && c ≤ 'Z') || ('0' ≤ c && c ≤ '9') || c = '_'

/-- Collect maximal runs of characters satisfying `p`, dropping separators. -/
def runsAux (p : Char → Bool) : List Char → List Char → List (List Char)
  | [], acc => if acc = [] then [] else [acc.reverse]
  | c :: r, acc =>
    if p c then runsAux p r (c :: acc)
    else if acc = [] then runsAux p r [] else acc.reverse :: runsAux p r []

/-- Modelled from the spec: the keyphrase extractor's tokenizer (the
`keyphrase` module is absent from the repository snapshot) — word runs of
letters/digits/apostrophes, lowercased for case-insensitive scoring;
everything else is a separator. -/
def tokenize (text : List Char) : List (List Char) :=
  runsAux isWordTokChar (lowerStr text) []

/-- Modelled from the spec: a small stopword list for the keyphrase
extractor (the spec fixes only that stopword-bounded n-grams are
discarded, not the exact list). -/
def STOPWORDS : List (List Char) :=
  ["the", "and", "a", "an", "of", "to", "in", "on", "for", "with", "is",
   "are", "was", "were", "be", "been", "it", "this", "that", "i", "you",
   "he", "she", "they", "we", "at", "by", "or", "as", "not", "very"].map
    String.toList

/-- The nonempty prefixes of `l` of length at most `maxN`. -/
def prefixesUpTo (maxN : ℕ) (l : List (List Char)) : List (List (List Char)) :=
  (List.range maxN).filterMap
    (fun n => if n + 1 ≤ l.length then some (l.take (n + 1)) else none)

/-- Every contiguous n-gram of length 1..maxN. -/
def ngrams : List (List Char) → ℕ → List (List (List Char))
  | [], _ => []
  | t :: r, maxN => prefixesUpTo maxN (t :: r) ++ ngrams r maxN

/-- Modelled from the spec: candidate n-grams whose first and last token
are not stopwords. -/
def candidatesOf (text : List Char) (maxN : ℕ) : List (List (List Char)) :=
  (ngrams (tokenize text) maxN).filter
    (fun g =>
      match g.head?, g.getLast? with
      | some f, some l => !(STOPWORDS.contains f) && !(STOPWORDS.contains l)
      | _, _ => false)

/-- Number of candidates containing a token. -/
def tokenFreq (cands : List (List (List Char))) (t : List Char) : ℕ :=
  (cands.filter (fun g => g.contains t)).length

/-- Accumulated `(candidateLength - 1)` over the candidates containing a
token. -/
def tokenDegree (cands : List (List (List Char))) (t : List Char) : ℕ :=
  ((cands.filter (fun g => g.contains t)).map (fun g => g.length - 1)).sum

/-- Modelled from the spec: token score `(degree + frequency) / frequency`. -/
def tokenScore (cands : List (List (List Char))) (t : List Char) : ℚ :=
  ((tokenDegree cands t : ℚ) + (tokenFreq cands t : ℚ)) / (tokenFreq cands t : ℚ)

/-- Modelled from the spec: a phrase's score is the sum of its constituent
tokens' scores. -/
def phraseScore (cands : List (List (List Char))) (g : List (List Char)) : ℚ :=
  (g.map (tokenScore cands)).sum

/-- Join tokens with single spaces. -/
def joinSpace : List (List Char) → List Char
  | [] => []
  | [t] => t
  | t :: t2 :: r => t ++ ' ' :: joinSpace (t2 :: r)

/-- Whole-word case-insensitive occurrence count of `phrase` in `text`. -/
def countOccur (text phrase : List Char) : ℕ :=
  let lt := lowerStr text
  ((List.range (lt.length + 1)).filter
    (fun i =>
      decide (segmentAt lt i phrase.length = phrase) &&
      decide (phrase.length ≤ lt.length - i) &&
      (decide (i = 0) ||
        (match lt.get? (i - 1) with
         | some c => !(isWordTokChar c)
         | none => true)) &&
      (match lt.get? (i + phrase.length) with
       | some c => !(isWordTokChar c)
       | none => true))).length

/-- A ranked keyphrase. -/
structure KPhrase where
  phrase : List Char
  score : ℚ
  count : ℕ
deriving DecidableEq

/-- Strict lexicographic order on character lists (by code point). -/
def lexLt : List Char → List Char → Bool
  | [], [] => false
  | [], _ :: _ => true
  | _ :: _, [] => false
  | a :: as, b :: bs =>
    if a.toNat < b.toNat then true
    else if b.toNat < a.toNat then false
    else lexLt as bs

/-- Sort order of extracted keyphrases: score desc, count desc, phrase
length desc, then lexicographic on the phrase (the spec's deterministic
final tie-break). -/
def kpBefore (a b : KPhrase) : Bool :=
  if b.score < a.score then true
  else if a.score < b.score then false
  else if b.count < a.count then true
  else if a.count < b.count then false
  else if b.phrase.length < a.phrase.length then true
  else if a.phrase.length < b.phrase.length then false
  else lexLt a.phrase b.phrase

/-- Stable insertion for `kpBefore`. -/
def insertKP (a : KPhrase) : List KPhrase → List KPhrase
  | [] => [a]
  | b :: r => if kpBefore a b then a :: b :: r else b :: insertKP a r

/-- Stable sort of keyphrases. -/
def sortKP (l : List KPhrase) : List KPhrase :=
  l.foldl (fun acc x => insertKP x acc) []

/-- Modelled from the spec: `extractKeyPhrases(text, {maxN, minScore,
minCount})` of the absent `keyphrase` module — stopword-bounded n-gram
candidates, degree/frequency token scores, whole-word re-counts, threshold
filtering, deterministic sort. -/
def extractKeyPhrases (text : List Char) (maxN : ℕ) (minScore : ℚ)
    (minCount : ℕ) : List KPhrase :=
  let cands := candidatesOf text maxN
  let scored := cands.map
    (fun g => KPhrase.mk (joinSpace g) (phraseScore cands g) (countOccur text (joinSpace g)))
  sortKP (scored.filter
    (fun p => decide (minCount ≤ p.count) && decide (minScore ≤ p.score)))

/-- `text.toLowerCase().indexOf(phrase)`: first occurrence index. -/
def indexOfSub (text pat : List Char) : Option ℕ :=
  ((List.range (text.length + 1)).filter
    (fun i => decide (segmentAt text i pat.length = pat))).head?

/-- The word-and-bigram fallback candidates of `autoAnnotateText`
(`temp` in the source): each `\w+` word, interleaved with each
adjacent-word pair joined by a space. -/
def bigramTemp : List (List Char) → List (List Char)
  | [] => []
  | [w] => [w]
  | w :: w2 :: r => w :: (w ++ ' ' :: w2) :: bigramTemp (w2 :: r)

/-- Deduplicate keeping first occurrences (`Array.from(new Set(...))`). -/
def dedupAux : List (List Char) → List (List Char) → List (List Char)
  | _, [] => []
  | seen, x :: r =>
    if seen.contains x then dedupAux seen r else x :: dedupAux (x :: seen) r

/-- Deduplicate preserving order. -/
def dedupKeepFirst (l : List (List Char)) : List (List Char) := dedupAux [] l

/-- Stable insertion for descending phrase length (the JS comparator
`(a, b) => b.phrase.length - a.phrase.length` under a stable sort). -/
def insertByLen (a : AutoAnn) : List AutoAnn → List AutoAnn
  | [] => [a]
  | b :: r =>
    if a.phrase.length ≤ b.phrase.length then b :: insertByLen a r
    else a :: b :: r

/-- Stable sort by descending phrase length. -/
def sortByLenDesc (l : List AutoAnn) : List AutoAnn :=
  l.foldl (fun acc x => insertByLen x acc) []

/-- The loop body of `autoAnnotateText`: skip empty phrases and phrases in
the user set; otherwise score, apply the placement boost, clamp, and keep
the annotation when the magnitude reaches the threshold 0.12. -/
def annStep (text : List Char) (userSet : List (List Char))
    (scores : List (List Char × ℚ)) (out : List AutoAnn)
    (phrase : List Char) : List AutoAnn :=
  if phrase = [] then out
  else if userSet.contains phrase then out
  else
    let baseScore := (mapGet scores phrase).getD 0
    let posBoost : ℚ :=
      match indexOfSub (lowerStr text) phrase with
      | some idx =>
        if 0 < text.length then
          3/25 * (1 - (idx : ℚ) / ((max 1 text.length : ℕ) : ℚ))
        else 0
      | none => 0
    let finalScore := normalizeScore (baseScore * (1 + posBoost))
    if 3/25 ≤ |finalScore| then
      out ++ [⟨phrase, scoreToColor finalScore, finalScore⟩]
    else out

/-- The candidate phrases of `autoAnnotateText`: the lowercased keyphrases
from the extractor, or — when there are none — the deduplicated lowercased
words and adjacent-word bigrams of the text. -/
def autoCandidates (text : List Char) : List (List Char) :=
  let kp := extractKeyPhrases text 3 (7/20) 1
  let candidates0 := kp.map (fun p => lowerStr p.phrase)
  if candidates0.length = 0 then
    (dedupKeepFirst
      ((bigramTemp (runsAux isRegexWordChar text [])).map
        (fun w => lowerStr (jsTrim w)))).filter (fun w => ¬ w = [])
  else candidates0

/-- `autoAnnotateText` from autoAnnotate: score each candidate with the
connotation scorer plus a position boost, drop user-marked phrases, keep
scores of magnitude at least 0.12, and sort longer phrases first. -/
def autoAnnotateText (text : List Char) (userHeatMap : List UserAnn) :
    List AutoAnn :=
  if text = [] then []
  else
    let userSet := userHeatMap.map (fun u => lowerStr u.phrase)
    let scores := computeConnotationScoresForWords (autoCandidates text)
    sortByLenDesc ((autoCandidates text).foldl (annStep text userSet scores) [])

/-- One decoded phrase of the `/api/extract-phrases` response. -/
structure LLMPhrase where
  phrase : List Char
  score : Option ℚ
deriving DecidableEq

/-- The response post-processing of `fetchLLMAnnotations` (the network
transport, HTTP fallback and JSON decoding are external; this is the pure
mapping applied to the decoded `phrases` array): trim and lowercase each
phrase, clamp the score (0 when it is not a number), drop empty phrases
and phrases in the user set, and sort longer phrases first. -/
def processLLMPhrases (phrases : List LLMPhrase) (userHeatMap : List UserAnn) :
    List AutoAnn :=
  let userSet := userHeatMap.map (fun u => lowerStr u.phrase)
  sortByLenDesc (phrases.filterMap
    (fun p =>
      let phrase := lowerStr (jsTrim p.phrase)
      let score :=
        match p.score with
        | some s => normalizeScore s
        | none => 0
      if phrase = [] ∨ userSet.contains phrase then none
      else some ⟨phrase, scoreToColor score, score⟩))

lemma char_ofNatAux_toNat (n : ℕ) (h : n.isValidChar) :
    (Char.ofNatAux n h).toNat = n := by
  simp [Char.ofNatAux, Char.toNat, UInt32.toNat]

lemma toLower_toNat (c : Char) :
    (Char.toLower c).toNat =
      if c.toNat ≥ 65 ∧ c.toNat ≤ 90 then c.toNat + 32 else c.toNat := by
  unfold Char.toLower
  by_cases h : c.toNat ≥ 65 ∧ c.toNat ≤ 90
  · rw [if_pos h, if_pos h, Char.ofNat, dif_pos (Or.inl (by omega))]
    exact char_ofNatAux_toNat _ _
  · rw [if_neg h, if_neg h]

lemma toLower_eq_self {d : Char} (h : ¬ (d.toNat ≥ 65 ∧ d.toNat ≤ 90)) :
    Char.toLower d = d := by
  unfold Char.toLower
  rw [if_neg h]

lemma char_toLower_idem (c : Char) :
    Char.toLower (Char.toLower c) = Char.toLower c := by
  apply toLower_eq_self
  rw [toLower_toNat c]
  by_cases h : c.toNat ≥ 65 ∧ c.toNat ≤ 90
  · rw [if_pos h]
    omega
  · rw [if_neg h]
    exact h

lemma lowerStr_idem (s : List Char) : lowerStr (lowerStr s) = lowerStr s := by
  unfold lowerStr jsLowerChar
  rw [List.map_map]
  apply List.map_congr_left
  intro c _
  exact char_toLower_idem c

lemma insertByLen_mem {a x : AutoAnn} :
    ∀ {l : List AutoAnn}, x ∈ insertByLen a l → x = a ∨ x ∈ l := by
  intro l
  induction l with
  | nil =>
    intro h
    rw [insertByLen] at h
    rcases List.mem_cons.mp h with h' | h'
    · exact Or.inl h'
    · cases h'
  | cons b r ih =>
    intro h
    rw [insertByLen] at h
    split at h
    · rcases List.mem_cons.mp h with h' | h'
      · exact Or.inr (h' ▸ List.mem_cons_self b r)
      · rcases ih h' with h'' | h''
        · exact Or.inl h''
        · exact Or.inr (List.mem_cons_of_mem b h'')
    · rcases List.mem_cons.mp h with h' | h'
      · exact Or.inl h'
      · exact Or.inr h'

lemma sortByLenDesc_mem {x : AutoAnn} :
    ∀ {l : List AutoAnn}, x ∈ sortByLenDesc l → x ∈ l := by
  have key : ∀ (l : List AutoAnn) (acc : List AutoAnn),
      x ∈ l.foldl (fun acc y => insertByLen y acc) acc → x ∈ acc ∨ x ∈ l := by
    intro l
    induction l with
    | nil => intro acc h; exact Or.inl h
    | cons b r ih =>
      intro acc h
      rw [List.foldl_cons] at h
      rcases ih _ h with h' | h'
      · rcases insertByLen_mem h' with h'' | h''
        · exact Or.inr (h'' ▸ List.mem_cons_self b r)
        · exact Or.inl h''
      · exact Or.inr (List.mem_cons_of_mem b h')
  intro l h
  rcases key l [] h with h' | h'
  · cases h'
  · exact h'

lemma dedupAux_mem {x : List Char} :
    ∀ {seen l : List (List Char)}, x ∈ dedupAux seen l → x ∈ l := by
  intro seen l
  induction l generalizing seen with
  | nil => intro h; cases h
  | cons b r ih =>
    intro h
    rw [dedupAux] at h
    split at h
    · exact List.mem_cons_of_mem b (ih h)
    · rcases List.mem_cons.mp h with h' | h'
      · exact h' ▸ List.mem_cons_self b r
      · exact List.mem_cons_of_mem b (ih h')

lemma autoCandidates_lower {text : List Char} :
    ∀ p ∈ autoCandidates text, ∃ y, p = lowerStr y := by
  intro p hp
  unfold autoCandidates at hp
  dsimp only at hp
  split at hp
  · have h1 := List.mem_filter.mp hp
    have h2 := dedupAux_mem h1.1
    obtain ⟨w, _, hw⟩ := List.mem_map.mp h2
    exact ⟨jsTrim w, hw.symm⟩
  · obtain ⟨q, _, hq⟩ := List.mem_map.mp hp
    exact ⟨q.phrase, hq.symm⟩

lemma annStep_mem {text : List Char} {userSet : List (List Char)}
    {scores : List (List Char × ℚ)} {out : List AutoAnn}
    {phrase : List Char} {a : AutoAnn}
    (h : a ∈ annStep text userSet scores out phrase) :
    a ∈ out ∨ (a.phrase = phrase ∧ userSet.contains phrase = false) := by
  unfold annStep at h
  split at h
  · exact Or.inl h
  · split at h
    · exact Or.inl h
    · next hcon =>
      dsimp only at h
      have key : ∀ (q : ℚ),
          a ∈ (if 3/25 ≤ |q| then
              out ++ [AutoAnn.mk phrase (scoreToColor q) q] else out) →
          a ∈ out ∨ a = AutoAnn.mk phrase (scoreToColor q) q := by
        intro q hq
        split at hq
        · rcases List.mem_append.mp hq with h' | h'
          · exact Or.inl h'
          · rcases List.mem_cons.mp h' with h'' | h''
            · exact Or.inr h''
            · cases h''
        · exact Or.inl hq
      rcases key _ h with h' | h'
      · exact Or.inl h'
      · exact Or.inr ⟨by rw [h'], Bool.eq_false_iff.mpr hcon⟩

lemma foldl_annStep_mem {text : List Char} {userSet : List (List Char)}
    {scores : List (List Char × ℚ)} {a : AutoAnn} :
    ∀ (l : List (List Char)) (acc : List AutoAnn),
      a ∈ l.foldl (annStep text userSet scores) acc →
      a ∈ acc ∨ ∃ p ∈ l, a.phrase = p ∧ userSet.contains p = false := by
  intro l
  induction l with
  | nil => intro acc h; exact Or.inl h
  | cons p r ih =>
    intro acc h
    rw [List.foldl_cons] at h
    rcases ih _ h with h' | ⟨q, hq, hqq⟩
    · rcases annStep_mem h' with h'' | h''
      · exact Or.inl h''
      · exact Or.inr ⟨p, List.mem_cons_self p r, h''⟩
    · exact Or.inr ⟨q, List.mem_cons_of_mem p hq, hqq⟩

/-- C10: neither the local auto-annotator nor the LLM response processing
ever emits an annotation whose lowercased phrase equals the lowercased
phrase of a user annotation — auto annotations cannot shadow a user-marked
phrase key. -/
theorem C10_auto_never_shadows_user :
    (∀ (text : List Char) (hm : List UserAnn) (a : AutoAnn) (u : UserAnn),
      a ∈ autoAnnotateText text hm → u ∈ hm →
      lowerStr a.phrase ≠ lowerStr u.phrase) ∧
    (∀ (ps : List LLMPhrase) (hm : List UserAnn) (a : AutoAnn) (u : UserAnn),
      a ∈ processLLMPhrases ps hm → u ∈ hm →
      lowerStr a.phrase ≠ lowerStr u.phrase) := by
  constructor
  · intro text hm a u ha hu heq
    rw [autoAnnotateText] at ha
    by_cases ht : text = []
    · rw [if_pos ht] at ha
      cases ha
    · rw [if_neg ht] at ha
      dsimp only at ha
      have ha1 := sortByLenDesc_mem ha
      rcases foldl_annStep_mem _ _ ha1 with h | ⟨p, hp, hap, hcon⟩
      · cases h
      · obtain ⟨y, hy⟩ := autoCandidates_lower p hp
        have hidem : lowerStr a.phrase = a.phrase := by
          rw [hap, hy, lowerStr_idem]
        have hmem : a.phrase ∈ hm.map (fun v => lowerStr v.phrase) := by
          rw [← hidem, heq]
          exact List.mem_map_of_mem _ hu
        rw [← hap] at hcon
        have helem := List.elem_eq_true_of_mem hmem
        rw [List.contains] at hcon
        rw [helem] at hcon
        cases hcon
  · intro ps hm a u ha hu heq
    unfold processLLMPhrases at ha
    have ha1 := sortByLenDesc_mem ha
    obtain ⟨p, hp, hfp⟩ := List.mem_filterMap.mp ha1
    dsimp only at hfp
    by_cases hc : lowerStr (jsTrim p.phrase) = [] ∨
        (hm.map (fun v => lowerStr v.phrase)).contains (lowerStr (jsTrim p.phrase)) = true
    · rw [if_pos hc] at hfp
      cases hfp
    · rw [if_neg hc] at hfp
      have hap : a.phrase = lowerStr (jsTrim p.phrase) :=
        (congrArg AutoAnn.phrase (Option.some.inj hfp)).symm
      have hidem : lowerStr a.phrase = a.phrase := by
        rw [hap, lowerStr_idem]
      have hmem : a.phrase ∈ hm.map (fun v => lowerStr v.phrase) := by
        rw [← hidem, heq]
        exact List.mem_map_of_mem _ hu
      rw [← hap] at hc
      exact hc (Or.inr (List.elem_eq_true_of_mem hmem))

lemma phraseScore_happy :
    phraseScore [["happy".toList]] ["happy".toList] = 1 := by
  unfold phraseScore
  simp only [List.map_cons, List.map_nil, List.sum_cons, List.sum_nil]
  unfold tokenScore
  rw [show tokenDegree [["happy".toList]] "happy".toList = 0 from rfl,
    show tokenFreq [["happy".toList]] "happy".toList = 1 from rfl]
  norm_num

lemma extractKeyPhrases_happy :
    extractKeyPhrases "happy".toList 3 (7/20) 1 = [⟨"happy".toList, 1, 1⟩] := by
  unfold extractKeyPhrases
  rw [show candidatesOf "happy".toList 3 = [["happy".toList]] from rfl]
  simp only [List.map_cons, List.map_nil]
  rw [show joinSpace ["happy".toList] = "happy".toList from rfl,
    show countOccur "happy".toList "happy".toList = 1 from rfl, phraseScore_happy]
  norm_num [sortKP, insertKP, List.filter]

lemma autoCandidates_happy : autoCandidates "happy".toList = ["happy".toList] := by
  unfold autoCandidates
  rw [extractKeyPhrases_happy]
  dsimp only
  rw [if_neg (by norm_num)]
  rfl

lemma scores_happy :
    computeConnotationScoresForWords ["happy".toList]
      = [("happy".toList, (17/20 : ℚ))] := by
  have h : computeConnotationScoresForWords ["happy".toList]
      = [("happy".toList, normalizeScore (17/20))] := rfl
  rw [h]
  norm_num [normalizeScore]

lemma autoAnnotateText_happy :
    autoAnnotateText "happy".toList [⟨"x".toList, ColorVal.css "#fff"⟩]
      = [⟨"happy".toList, scoreToColor (119/125), 119/125⟩] := by
  rw [autoAnnotateText, if_neg (by decide)]
  dsimp only
  rw [autoCandidates_happy, scores_happy]
  simp only [List.foldl_cons, List.foldl_nil, List.map_cons, List.map_nil]
  rw [annStep]
  rw [if_neg (by decide)]
  rw [if_neg (by decide)]
  dsimp only
  rw [show mapGet [("happy".toList, (17/20 : ℚ))] "happy".toList
      = some (17/20) from rfl]
  rw [show indexOfSub (lowerStr "happy".toList) "happy".toList = some 0 from rfl]
  rw [show ("happy".toList.length) = 5 from rfl]
  simp only [Option.getD_some]
  norm_num [normalizeScore]
  rw [if_pos (show (3:ℚ)/25 ≤ |119/125| by
    rw [abs_of_nonneg (by norm_num : (0:ℚ) ≤ 119/125)]
    norm_num)]
  rfl

lemma processLLM_joy :
    processLLMPhrases [⟨"joy".toList, some (1/2)⟩]
        [⟨"x".toList, ColorVal.css "#fff"⟩]
      = [⟨"joy".toList, scoreToColor (1/2), 1/2⟩] := by
  have h : processLLMPhrases [⟨"joy".toList, some (1/2)⟩]
        [⟨"x".toList, ColorVal.css "#fff"⟩]
      = [⟨"joy".toList, scoreToColor (normalizeScore (1/2)),
          normalizeScore (1/2)⟩] := rfl
  rw [h]
  norm_num [normalizeScore]

theorem C10_witness :
    lowerStr "happy".toList ≠ lowerStr "x".toList ∧
    lowerStr "joy".toList ≠ lowerStr "x".toList :=
  ⟨C10_auto_never_shadows_user.1 "happy".toList
     [⟨"x".toList, ColorVal.css "#fff"⟩]
     ⟨"happy".toList, scoreToColor (119/125), 119/125⟩
     ⟨"x".toList, ColorVal.css "#fff"⟩
     (by rw [autoAnnotateText_happy]; exact List.mem_singleton.mpr rfl)
     (List.mem_singleton.mpr rfl),
   C10_auto_never_shadows_user.2 [⟨"joy".toList, some (1/2)⟩]
     [⟨"x".toList, ColorVal.css "#fff"⟩]
     ⟨"joy".toList, scoreToColor (1/2), 1/2⟩
     ⟨"x".toList, ColorVal.css "#fff"⟩
     (by rw [processLLM_joy]; exact List.mem_singleton.mpr rfl)
     (List.mem_singleton.mpr rfl)⟩
